import Mathlib

/-!
Verification development for the devices-sync reconciliation engine
(an Obsidian vault <-> Supabase storage synchronizer).

The repository ships three variants of the plugin source:
  * `main.ts`                (namespace `Main` below),
  * `src/unnamed/part_000`   (namespace `P0` below, the timestamped-key variant),
  * `src/unnamed/part_001`   (namespace `P1` below, the event-listener variant).

The embedding below translates the reconciliation-relevant functions of each
variant.  External collaborators are modelled shallowly:
  * the Supabase storage bucket is an association list `Store` of
    key/object pairs with upsert semantics (`upload(..., { upsert: true })`),
    `remove` and `download` primitives; JSON serialisation of the sidecar
    metadata is modelled as the identity (objects are stored structurally);
  * the Obsidian vault is a list of `LocalFile` records; `createBinary`
    stamps the file with the current clock, which is threaded explicitly;
  * JavaScript string built-ins (`toLowerCase`, `normalize("NFD"/"NFC")`,
    `encodeURIComponent`, `split`, `replace`, `endsWith`) are embedded as
    structurally recursive functions on `List Char`; the Unicode tables for
    case mapping and canonical (de)composition are restricted to the ASCII
    and Latin-1 letters exercised by this development, identity elsewhere;
  * Obsidian's `normalizePath` is modelled from its documented behaviour
    (non-breaking spaces to spaces, NFC normalisation, backslashes to
    slashes, collapse of repeated slashes, trim of leading/trailing
    slashes, empty result becomes "/").
-/

/-- Decimal digit character for `n ≤ 9` (the default arm is unreachable in
all uses, which pass `n % 10`). -/
def digitChar10 (n : Nat) : Char :=
  match n with
  | 0 => '0' | 1 => '1' | 2 => '2' | 3 => '3' | 4 => '4'
  | 5 => '5' | 6 => '6' | 7 => '7' | 8 => '8' | _ => '9'

/-- Fuel-driven decimal printer (most significant digit first).  The fuel is
always at least the digit count, so the `0` arm is unreachable in `natToStr`. -/
def natDigitsAux : Nat → Nat → List Char
  | 0, _ => []
  | fuel + 1, n =>
    if n < 10 then [digitChar10 n]
    else natDigitsAux fuel (n / 10) ++ [digitChar10 (n % 10)]

/-- Decimal rendering of a natural number, modelling the JS template
interpolation of a numeric timestamp into an object key. -/
def natToStr (n : Nat) : String := ⟨natDigitsAux (n + 1) n⟩

/-- Case-mapping table for `String.prototype.toLowerCase`, restricted to the
ASCII and Latin-1 uppercase letters (identity on every other character). -/
def lowerTable : List (Char × Char) :=
  [('A', 'a'), ('B', 'b'), ('C', 'c'), ('D', 'd'), ('E', 'e'), ('F', 'f'),
   ('G', 'g'), ('H', 'h'), ('I', 'i'), ('J', 'j'), ('K', 'k'), ('L', 'l'),
   ('M', 'm'), ('N', 'n'), ('O', 'o'), ('P', 'p'), ('Q', 'q'), ('R', 'r'),
   ('S', 's'), ('T', 't'), ('U', 'u'), ('V', 'v'), ('W', 'w'), ('X', 'x'),
   ('Y', 'y'), ('Z', 'z'),
   ('À', 'à'), ('Á', 'á'), ('Â', 'â'),
   ('Ã', 'ã'), ('Ä', 'ä'), ('Å', 'å'),
   ('Æ', 'æ'), ('Ç', 'ç'), ('È', 'è'),
   ('É', 'é'), ('Ê', 'ê'), ('Ë', 'ë'),
   ('Ì', 'ì'), ('Í', 'í'), ('Î', 'î'),
   ('Ï', 'ï'), ('Ð', 'ð'), ('Ñ', 'ñ'),
   ('Ò', 'ò'), ('Ó', 'ó'), ('Ô', 'ô'),
   ('Õ', 'õ'), ('Ö', 'ö'), ('Ø', 'ø'),
   ('Ù', 'ù'), ('Ú', 'ú'), ('Û', 'û'),
   ('Ü', 'ü'), ('Ý', 'ý'), ('Þ', 'þ')]

/-- Per-character lower-casing. -/
def jsLowerChar (c : Char) : Char :=
  match lowerTable.find? (fun kv => kv.1 == c) with
  | some kv => kv.2
  | none => c

/-- Embedding of `s.toLowerCase()` (character-wise simple case mapping). -/
def jsToLowerStr (s : String) : String := ⟨s.data.map jsLowerChar⟩

/-- Canonical decomposition table for `String.prototype.normalize("NFD")`,
restricted to the Latin-1 precomposed letters used in this development
(identity on every other character).  Each entry maps a precomposed letter
to its base letter followed by the combining mark (U+0300 grave, U+0301
acute, U+0302 circumflex, U+0303 tilde, U+0308 diaeresis, U+0327 cedilla). -/
def nfdTable : List (Char × List Char) :=
  [('À', ['A', '̀']), ('Á', ['A', '́']),
   ('Â', ['A', '̂']), ('Ã', ['A', '̃']),
   ('Ä', ['A', '̈']), ('Ç', ['C', '̧']),
   ('È', ['E', '̀']), ('É', ['E', '́']),
   ('Ê', ['E', '̂']), ('Ì', ['I', '̀']),
   ('Í', ['I', '́']), ('Ñ', ['N', '̃']),
   ('Ò', ['O', '̀']), ('Ó', ['O', '́']),
   ('Ô', ['O', '̂']), ('Õ', ['O', '̃']),
   ('Ù', ['U', '̀']), ('Ú', ['U', '́']),
   ('Ü', ['U', '̈']),
   ('à', ['a', '̀']), ('á', ['a', '́']),
   ('â', ['a', '̂']), ('ã', ['a', '̃']),
   ('ä', ['a', '̈']), ('ç', ['c', '̧']),
   ('è', ['e', '̀']), ('é', ['e', '́']),
   ('ê', ['e', '̂']), ('ì', ['i', '̀']),
   ('í', ['i', '́']), ('ñ', ['n', '̃']),
   ('ò', ['o', '̀']), ('ó', ['o', '́']),
   ('ô', ['o', '̂']), ('õ', ['o', '̃']),
   ('ù', ['u', '̀']), ('ú', ['u', '́']),
   ('ü', ['u', '̈'])]

/-- Decompose one character (identity outside the table). -/
def nfdChar (c : Char) : List Char :=
  match nfdTable.find? (fun kv => kv.1 == c) with
  | some kv => kv.2
  | none => [c]

/-- Embedding of `s.normalize("NFD")` on the modelled character range. -/
def nfdStr (s : String) : String := ⟨(s.data.map nfdChar).flatten⟩

/-- Canonical composition lookup: the composed character for a base/mark
pair, if the pair appears in `nfdTable`. -/
def compFind (a b : Char) : Option Char :=
  (nfdTable.find? (fun kv => kv.2 == [a, b])).map (fun kv => kv.1)

/-- Single-pass canonical composition over a character list.  On the
modelled table no composed character recombines with a following mark, so
the single pass agrees with full NFC there. -/
def nfcList : List Char → List Char
  | [] => []
  | [a] => [a]
  | a :: b :: rest =>
    match compFind a b with
    | some comp => comp :: nfcList rest
    | none => a :: nfcList (b :: rest)

/-- Characters kept by the safe-set filter `[a-zA-Z0-9.-]` of the alias
codec in `part_001`. -/
def isSafeChar (c : Char) : Bool := c.isAlphanum || c == '.' || c == '-'

/-- Embedding of the mark-stripping regex replace (drop the combining
diacritical marks U+0300 to U+036F). -/
def stripMarks (s : String) : String :=
  ⟨s.data.filter (fun c => !decide (0x300 ≤ c.toNat ∧ c.toNat ≤ 0x36F))⟩

/-- Embedding of `.replace(/[^a-zA-Z0-9.-]/g, "")` (remove everything
outside the safe set). -/
def keepSafeChars (s : String) : String := ⟨s.data.filter isSafeChar⟩

/-- Characters `encodeURIComponent` leaves unescaped:
`A-Z a-z 0-9 - _ . ! ~ * ' ( )`. -/
def uriUnreserved (c : Char) : Bool :=
  c.isAlphanum || c == '-' || c == '_' || c == '.' || c == '!' || c == '~' ||
    c == '*' || c == '\'' || c == '(' || c == ')'

/-- Uppercase hexadecimal digit for `n ≤ 15` (default arm unreachable in
all uses, which pass values below 16). -/
def hexDigitChar (n : Nat) : Char :=
  match n with
  | 0 => '0' | 1 => '1' | 2 => '2' | 3 => '3' | 4 => '4' | 5 => '5'
  | 6 => '6' | 7 => '7' | 8 => '8' | 9 => '9' | 10 => 'A' | 11 => 'B'
  | 12 => 'C' | 13 => 'D' | 14 => 'E' | _ => 'F'

/-- UTF-8 encoding of a Unicode scalar value. -/
def utf8Bytes (n : Nat) : List Nat :=
  if n < 0x80 then [n]
  else if n < 0x800 then [0xC0 + n / 64, 0x80 + n % 64]
  else if n < 0x10000 then
    [0xE0 + n / 4096, 0x80 + (n / 64) % 64, 0x80 + n % 64]
  else
    [0xF0 + n / 262144, 0x80 + (n / 4096) % 64, 0x80 + (n / 64) % 64,
     0x80 + n % 64]

/-- Percent-escape of one byte, `%XX` with uppercase hex. -/
def pctByte (b : Nat) : List Char := ['%', hexDigitChar (b / 16), hexDigitChar (b % 16)]

/-- Embedding of `encodeURIComponent`: unreserved characters pass through,
everything else is percent-encoded byte-wise in UTF-8. -/
def encodeURIComponentS (s : String) : String :=
  ⟨(s.data.map (fun c =>
      if uriUnreserved c then [c] else (utf8Bytes c.toNat).map pctByte |>.flatten)).flatten⟩

/-- Replace U+00A0 and U+202F non-breaking spaces by plain spaces
(part of Obsidian's `normalizePath`). -/
def nbspFix (c : Char) : Char :=
  if c == ' ' || c == ' ' then ' ' else c

/-- Backslash-to-slash conversion (part of Obsidian's `normalizePath`). -/
def bsFix (c : Char) : Char := if c == '\\' then '/' else c

/-- Collapse runs of `/` to a single `/`. -/
def collapseSlashes : List Char → List Char
  | [] => []
  | [c] => [c]
  | a :: b :: rest =>
    if a == '/' && b == '/' then collapseSlashes (b :: rest)
    else a :: collapseSlashes (b :: rest)

/-- Drop leading and trailing `/`. -/
def trimSlashes (l : List Char) : List Char :=
  ((l.dropWhile (fun c => c == '/')).reverse.dropWhile (fun c => c == '/')).reverse

/-- Embedding of Obsidian's `normalizePath` collaborator, modelled from its
documented behaviour: non-breaking spaces become spaces, NFC normalisation,
backslashes become slashes, repeated slashes collapse, leading/trailing
slashes are trimmed, and an empty result becomes "/". -/
def normalizePathO (s : String) : String :=
  let r := trimSlashes (collapseSlashes ((nfcList (s.data.map nbspFix)).map bsFix))
  if r = [] then "/" else ⟨r⟩

/-- Embedding of the one-argument form of `String.prototype.split` with a
single-character separator (structural, accumulator-based). -/
def charSplitAux (sep : Char) : List Char → List Char → List String
  | [], acc => [⟨acc.reverse⟩]
  | c :: cs, acc =>
    if c == sep then ⟨acc.reverse⟩ :: charSplitAux sep cs []
    else charSplitAux sep cs (c :: acc)

/-- `charSplit sep s` embeds `s.split(sep)` for a one-character separator. -/
def charSplit (sep : Char) (s : String) : List String :=
  charSplitAux sep s.data []

/-- Embedding of `String.prototype.replace` with a plain-string pattern:
replaces the first occurrence only. -/
def replaceOnceL (pat sub : List Char) : List Char → List Char
  | [] => if pat.isPrefixOf ([] : List Char) then sub else []
  | c :: cs =>
    if pat.isPrefixOf (c :: cs) then sub ++ (c :: cs).drop pat.length
    else c :: replaceOnceL pat sub cs

/-- String wrapper for `replaceOnceL`. -/
def replaceOnce (s pat sub : String) : String :=
  ⟨replaceOnceL pat.data sub.data s.data⟩

/-- Embedding of `String.prototype.endsWith`. -/
def endsWithJS (s pat : String) : Bool := pat.data.isSuffixOf s.data

/-- Obsidian `TFile.name`: the last path component. -/
def fileName (p : String) : String := (charSplit '/' p).getLastD p

/-- Obsidian `TFile.extension`: the part of the name after the last dot
(empty for dotless names). -/
def fileExt (p : String) : String :=
  let parts := charSplit '.' (fileName p)
  if parts.length ≤ 1 then "" else parts.getLastD ""

/-- A file of the local vault: vault-relative path, modification time
(`stat.mtime`) and binary content. -/
structure LocalFile where
  path : String
  mtime : Nat
  content : List Nat
deriving DecidableEq, Repr

/-- The local vault is the list of its files. -/
abbrev Vault := List LocalFile

/-- Embedding of `vault.getAbstractFileByPath` (restricted to files, the
only case the sync code acts on). -/
def vaultGet (v : Vault) (p : String) : Option LocalFile :=
  v.find? (fun f => f.path == p)

/-- The sidecar metadata object `{ originalName, originalPath, timeStamp }`. -/
structure SidecarMeta where
  originalName : String
  originalPath : String
  timeStamp : Nat
deriving DecidableEq, Repr

/-- A stored object: either a payload blob (content plus MIME type) or a
sidecar metadata object.  JSON (de)serialisation of sidecars is modelled as
the identity. -/
inductive ObjVal where
  | payload (content : List Nat) (mime : String)
  | sidecar (meta : SidecarMeta)
deriving DecidableEq, Repr

/-- The remote bucket: a flat association list of key/object pairs.  The
source lists with `{ limit: 1000 }`; stores in this development stay far
below that bound, so `list` is modelled as the full listing. -/
abbrev Store := List (String × ObjVal)

/-- Keys of the store, in listing order. -/
def storeKeys (s : Store) : List String := s.map (fun kv => kv.1)

/-- Embedding of `download(key)`: the first object stored under the key. -/
def storeGet (s : Store) (k : String) : Option ObjVal :=
  (s.find? (fun kv => kv.1 == k)).map (fun kv => kv.2)

/-- Embedding of `upload(key, blob, { upsert: true })`. -/
def upsert (s : Store) (k : String) (v : ObjVal) : Store :=
  if (s.find? (fun kv => kv.1 == k)).isSome then
    s.map (fun kv => if kv.1 == k then (k, v) else kv)
  else s ++ [(k, v)]

/-- Embedding of `remove([key])` for a single key. -/
def removeKey (s : Store) (k : String) : Store :=
  s.filter (fun kv => !(kv.1 == k))

/-- Embedding of `remove(keys)`. -/
def removeKeys (s : Store) (ks : List String) : Store :=
  s.filter (fun kv => !(ks.contains kv.1))

/-- Number of entries stored under a key. -/
def countKey (s : Store) (k : String) : Nat :=
  s.countP (fun kv => kv.1 == k)

/-- Shape of the listings built by `getLocalFiles` / `getRemoteFiles`:
`{ name, path, timestamp }`. -/
structure FileEntry where
  name : String
  path : String
  timestamp : Nat
deriving DecidableEq, Repr

/-- The MIME lookup table of `getMimeType` (identical in all three source
variants). -/
def mimeTypes : List (String × String) :=
  [("md", "text/markdown"), ("txt", "text/plain"), ("json", "application/json"),
   ("html", "text/html"), ("css", "text/css"), ("js", "application/javascript"),
   ("ts", "application/typescript"), ("jsx", "text/jsx"), ("tsx", "text/tsx"),
   ("xml", "application/xml"), ("csv", "text/csv"), ("yaml", "text/yaml"),
   ("yml", "text/yaml"), ("ini", "text/plain"),
   ("pdf", "application/pdf"), ("doc", "application/msword"),
   ("docx", "application/vnd.openxmlformats-officedocument.wordprocessingml.document"),
   ("xls", "application/vnd.ms-excel"),
   ("xlsx", "application/vnd.openxmlformats-officedocument.spreadsheetml.sheet"),
   ("ppt", "application/vnd.ms-powerpoint"),
   ("pptx", "application/vnd.openxmlformats-officedocument.presentationml.presentation"),
   ("png", "image/png"), ("jpg", "image/jpeg"), ("jpeg", "image/jpeg"),
   ("gif", "image/gif"), ("bmp", "image/bmp"), ("svg", "image/svg+xml"),
   ("webp", "image/webp"), ("ico", "image/vnd.microsoft.icon"),
   ("mp3", "audio/mpeg"), ("wav", "audio/wav"), ("ogg", "audio/ogg"),
   ("flac", "audio/flac"), ("m4a", "audio/mp4"),
   ("mp4", "video/mp4"), ("webm", "video/webm"), ("mkv", "video/x-matroska"),
   ("mov", "video/quicktime"), ("avi", "video/x-msvideo"),
   ("zip", "application/zip"), ("rar", "application/vnd.rar"),
   ("tar", "application/x-tar"), ("gz", "application/gzip"),
   ("ttf", "font/ttf"), ("otf", "font/otf"), ("woff", "font/woff"),
   ("woff2", "font/woff2")]

/-- Embedding of `getMimeType(ext)`: table lookup on the lower-cased
extension with the `application/octet-stream` fallback (none of the table
values is falsy, so `||` is an option-default). -/
def getMimeType (ext : String) : String :=
  ((mimeTypes.find? (fun kv => kv.1 == jsToLowerStr ext)).map (fun kv => kv.2)).getD
    "application/octet-stream"

namespace Main

/-- Embedding of `main.ts getAlias`:
`encodeURIComponent(normalizePath(path))` with no stripping or case
folding. -/
def getAlias (path : String) : String :=
  encodeURIComponentS (normalizePathO path)

/-- Embedding of `main.ts getLocalFiles`: snapshot of the vault as
`{ name, path, timestamp }` records. -/
def getLocalFiles (v : Vault) : List FileEntry :=
  v.map (fun f => ⟨fileName f.path, f.path, f.mtime⟩)

/-- The per-listing-entry contribution of `getRemoteFiles`: keys ending in
`.meta.json` whose download parses as sidecar metadata yield one inventory
entry (name and path are the key with the first `.meta.json` occurrence
removed, the timestamp comes from the metadata); every other key is
skipped.  A payload stored under a `.meta.json` key would make the source's
`JSON.parse` fail; it is modelled as a skipped entry. -/
def remoteEntryOf (s : Store) (kv : String × ObjVal) : List FileEntry :=
  if endsWithJS kv.1 ".meta.json" then
    match storeGet s kv.1 with
    | some (ObjVal.sidecar m) =>
      [⟨replaceOnce kv.1 ".meta.json" "", replaceOnce kv.1 ".meta.json" "",
        m.timeStamp⟩]
    | _ => []
  else []

/-- Embedding of `main.ts getRemoteFiles` (also the body of
`part_001 getRemoteFiles`, which is identical): walk the listing, keep only
sidecar keys, download each sidecar and build the inventory from it. -/
def getRemoteFiles (s : Store) : List FileEntry :=
  s.foldl (fun acc kv => acc ++ remoteEntryOf s kv) []

/-- Embedding of `main.ts uploadFile`: resolve the path in the vault
(silently returning when it no longer resolves), then upsert the payload
under the alias key and afterwards the sidecar under `alias + ".meta.json"`.
The second component lists the written keys in write order. -/
def uploadFile (v : Vault) (s : Store) (path : String) : Store × List String :=
  match vaultGet v path with
  | none => (s, [])
  | some file =>
    let aliasKey := getAlias file.path
    let filename := aliasKey
    let mime := getMimeType (fileExt file.path)
    let s1 := upsert s filename (ObjVal.payload file.content mime)
    let meta : SidecarMeta := ⟨fileName file.path, file.path, file.mtime⟩
    let s2 := upsert s1 (filename ++ ".meta.json") (ObjVal.sidecar meta)
    (s2, [filename, filename ++ ".meta.json"])

/-- Embedding of `main.ts updateRemote`, whose body is verbatim identical
to `uploadFile`. -/
def updateRemote (v : Vault) (s : Store) (path : String) : Store × List String :=
  match vaultGet v path with
  | none => (s, [])
  | some file =>
    let aliasKey := getAlias file.path
    let filename := aliasKey
    let mime := getMimeType (fileExt file.path)
    let s1 := upsert s filename (ObjVal.payload file.content mime)
    let meta : SidecarMeta := ⟨fileName file.path, file.path, file.mtime⟩
    let s2 := upsert s1 (filename ++ ".meta.json") (ObjVal.sidecar meta)
    (s2, [filename, filename ++ ".meta.json"])

/-- Embedding of `main.ts uploadFileAsNew`: derive a suffixed file name
from the path (`path.split('.')[0] + " 1." + path.split('.').pop()`) and
pass it to `uploadFile`. -/
def uploadFileAsNew (v : Vault) (s : Store) (path : String) : Store × List String :=
  let aliasKey := (charSplit '.' path).headD ""
  let ext := (charSplit '.' path).getLastD ""
  let newFileName := aliasKey ++ " 1." ++ ext
  uploadFile v s newFileName

/-- Embedding of `main.ts downloadFile`: fetch the payload under `path`,
then the sidecar under `path + ".meta.json"` (returning on either failure),
read `originalPath` from the metadata, and when no vault file exists at
`originalPath`, create the file — the source creates it at `path`, the key
it was called with.  `createBinary` stamps the new file with the current
clock. -/
def downloadFile (v : Vault) (s : Store) (path : String) (clock : Nat) : Vault :=
  match storeGet s path with
  | some (ObjVal.payload content _) =>
    match storeGet s (path ++ ".meta.json") with
    | some (ObjVal.sidecar m) =>
      match vaultGet v m.originalPath with
      | none => v ++ [⟨path, clock, content⟩]
      | some _ => v
    | _ => v
  | _ => v

/-- Reconciliation outcome for one inventory entry of the `main.ts`
`syncFiles` pass. -/
inductive SyncAction where
  | upload (path : String)
  | update (path : String)
  | uploadAsNew (path : String)
  | download (path : String)
deriving DecidableEq, Repr

/-- The branch `syncFiles` takes for one local file against the remote
inventory snapshot (`none` when the timestamps are equal and the file is
skipped). -/
def branchOf (remotes : List FileEntry) (file : FileEntry) : Option SyncAction :=
  match remotes.find? (fun r => r.path == file.path) with
  | none => some (SyncAction.upload file.path)
  | some r =>
    if file.timestamp > r.timestamp then some (SyncAction.update file.path)
    else if file.timestamp < r.timestamp then some (SyncAction.uploadAsNew file.path)
    else none

/-- The store transition of one iteration of the first `syncFiles` loop
(the branch decisions read the inventory snapshots, the writes act on the
live store). -/
def step1 (v : Vault) (remotes : List FileEntry) (s : Store) (file : FileEntry) :
    Store :=
  match remotes.find? (fun r => r.path == file.path) with
  | none => (uploadFile v s file.path).1
  | some r =>
    if file.timestamp > r.timestamp then (updateRemote v s file.path).1
    else if file.timestamp < r.timestamp then (uploadFileAsNew v s file.path).1
    else s

/-- Embedding of `main.ts syncFiles`: snapshot both inventories, run the
local-side loop (upload / update / upload-as-new), then the remote-side
loop (download remote-only entries).  Returns the final vault, the final
store and the list of reconciliation actions in program order.  The source
fires its async calls without awaiting them; since every branch decision
reads only the two snapshots, the sequential modelling fixes the action
list exactly. -/
def syncFiles (v : Vault) (s : Store) (clock : Nat) :
    Vault × Store × List SyncAction :=
  let locals := getLocalFiles v
  let remotes := getRemoteFiles s
  let s1 := locals.foldl (step1 v remotes) s
  let acts1 := locals.filterMap (branchOf remotes)
  let v1 := remotes.foldl
    (fun vv file =>
      if (locals.find? (fun f => f.path == file.path)).isSome then vv
      else downloadFile vv s1 file.path clock) v
  let acts2 := remotes.filterMap
    (fun file =>
      if (locals.find? (fun f => f.path == file.path)).isSome then none
      else some (SyncAction.download file.path))
  (v1, s1, acts1 ++ acts2)

end Main

namespace P0

/-- Embedding of `part_000 getAlias`, identical to the `main.ts` version:
`encodeURIComponent(normalizePath(path))`. -/
def getAlias (path : String) : String :=
  encodeURIComponentS (normalizePathO path)

/-- Embedding of the version-key regex match of `part_000 upload`:
`new RegExp("^" + alias + "__\\d+\\." + ext + "$")` tested against a key.
The alias and extension are taken literally (exact for aliases free of
regex metacharacters): the key must be
`alias ++ "__" ++ digits ++ "." ++ ext` with a nonempty digit block. -/
def matchesVersionKey (aliasKey ext name : String) : Bool :=
  let pre := aliasKey.data ++ ['_', '_']
  let suf := '.' :: ext.data
  let n := name.data
  pre.isPrefixOf n && suf.isSuffixOf n &&
    (let mid := (n.drop pre.length).take ((n.drop pre.length).length - suf.length)
     !mid.isEmpty && mid.all Char.isDigit)

/-- Embedding of one iteration of the `part_000 upload` loop for one path:
skip paths that no longer resolve, otherwise list the bucket, remove every
key matching the alias/extension version pattern, then upload the new
timestamped payload.  `ts` is the `Date.now()` sample of the iteration.
No sidecar is written (the metadata write in the source is commented out).
The second component lists the written keys. -/
def uploadOne (v : Vault) (s : Store) (path : String) (ts : Nat) :
    Store × List String :=
  match vaultGet v path with
  | none => (s, [])
  | some file =>
    let aliasKey := getAlias path
    let ext := fileExt file.path
    let filename := aliasKey ++ "__" ++ natToStr ts ++ "." ++ ext
    let s1 := (storeKeys s).foldl
      (fun st name => if matchesVersionKey aliasKey ext name then removeKey st name else st)
      s
    let s2 := upsert s1 filename (ObjVal.payload file.content (getMimeType ext))
    (s2, [filename])

end P0

namespace P1

/-- Embedding of `part_001 getAlias`: NFD-normalise, drop combining marks,
remove characters outside `[a-zA-Z0-9.-]`, lower-case, then
`encodeURIComponent(normalizePath(· ))`. -/
def getAlias (path : String) : String :=
  let newPath := jsToLowerStr (keepSafeChars (stripMarks (nfdStr path)))
  encodeURIComponentS (normalizePathO newPath)

/-- Embedding of `part_001 deleteFile`, the handler body behind the vault
`delete` event: remove the raw path and `path + ".meta.json"` from the
bucket. -/
def deleteFile (s : Store) (path : String) : Store :=
  removeKeys s [path, path ++ ".meta.json"]

/-- Embedding of `part_001 deleteLocalFile`: delete the vault file at the
path when it resolves to a file. -/
def deleteLocalFile (v : Vault) (path : String) : Vault :=
  match vaultGet v path with
  | some _ => v.filter (fun f => !(f.path == path))
  | none => v

/-- Embedding of `part_001 downloadFile`: fetch payload and sidecar
(returning on either failure), take `originalPath` from the metadata unless
an explicit `newPath` overrides it, then create the local file there when
absent or overwrite it (`modifyBinary`) when present. -/
def downloadFile (v : Vault) (s : Store) (path : String)
    (newPath : Option String) (clock : Nat) : Vault :=
  match storeGet s path with
  | some (ObjVal.payload content _) =>
    match storeGet s (path ++ ".meta.json") with
    | some (ObjVal.sidecar m) =>
      let localPath := match newPath with
        | some np => np
        | none => m.originalPath
      match vaultGet v localPath with
      | none => v ++ [⟨localPath, clock, content⟩]
      | some _ =>
        v.map (fun f => if f.path == localPath then ⟨f.path, clock, content⟩ else f)
    | _ => v
  | _ => v

/-- Reconciliation outcome for one entry of the `part_001 syncFiles` pass. -/
inductive Action where
  | download (path : String)
  | deleteLocal (path : String)
deriving DecidableEq, Repr

/-- The branch of the `part_001 syncFiles` local loop for one local file:
`existsInRemote && !existsInLocal` downloads (dead in practice),
`existsInLocal && !existsInRemote` deletes the local file, and when both
exist a timestamp mismatch downloads. -/
def localBranch (locals remotes : List FileEntry) (file : FileEntry) :
    List Action :=
  match remotes.find? (fun f => f.path == file.path),
        locals.find? (fun f => f.path == file.path) with
  | some _, none => [Action.download file.path]
  | none, some _ => [Action.deleteLocal file.path]
  | some r, some _ =>
    if file.timestamp ≠ r.timestamp then [Action.download file.path] else []
  | none, none => []

/-- Embedding of the branch decisions of `part_001 syncFiles`: the local
loop, then the remote loop downloading remote entries with no local
counterpart.  The source calls `deleteLocalFile` / `downloadFile` directly;
the returned list records those calls in program order. -/
def syncActions (locals remotes : List FileEntry) : List Action :=
  (locals.map (localBranch locals remotes)).flatten ++
    (remotes.map (fun file =>
      if (locals.find? (fun f => f.path == file.path)).isSome then []
      else [Action.download file.path])).flatten

end P1

/-- Modelled from the spec's words (§4.1), for the refinement comparison
with the source alias codecs: "normalize (decompose accents, drop
diacritic marks), strip characters outside the safe set, lower-case,
percent-encode remaining reserved characters". -/
def specAliasEncode (path : String) : String :=
  encodeURIComponentS (jsToLowerStr (keepSafeChars (stripMarks (nfdStr path))))

/-- Specification vocabulary: the two store entries `main.ts uploadFile`
appends for a vault file whose alias equals its path. -/
def mainPairsOf (f : LocalFile) : Store :=
  [(f.path, ObjVal.payload f.content (getMimeType (fileExt f.path))),
   (f.path ++ ".meta.json", ObjVal.sidecar ⟨fileName f.path, f.path, f.mtime⟩)]

/-- Specification vocabulary: the local-inventory entry of a vault file. -/
def mainLocalEntry (f : LocalFile) : FileEntry := ⟨fileName f.path, f.path, f.mtime⟩

/-- Specification vocabulary: the remote-inventory entry rebuilt from the
sidecar `main.ts uploadFile` wrote for a vault file whose alias equals its
path. -/
def mainRemoteEntry (f : LocalFile) : FileEntry := ⟨f.path, f.path, f.mtime⟩

/-! Helper lemmas about the embedded JS string primitives and the store. -/

theorem jsLowerChar_idem (c : Char) : jsLowerChar (jsLowerChar c) = jsLowerChar c := by
  unfold jsLowerChar
  cases h : lowerTable.find? (fun kv => kv.1 == c) with
  | none => rw [h]
  | some kv =>
    have hmem : kv ∈ lowerTable := List.mem_of_find?_eq_some h
    have hall : lowerTable.all
        (fun p => (lowerTable.find? (fun x => x.1 == p.2)).isNone) = true := by decide
    have := List.all_eq_true.mp hall kv hmem
    cases hfind : lowerTable.find? (fun x => x.1 == kv.2) with
    | none => rfl
    | some q => rw [hfind] at this; simp at this

theorem jsToLowerStr_idem (s : String) : jsToLowerStr (jsToLowerStr s) = jsToLowerStr s := by
  unfold jsToLowerStr
  have : jsLowerChar ∘ jsLowerChar = jsLowerChar := funext jsLowerChar_idem
  simp [List.map_map, this]

theorem endsWithJS_append (a pat : String) : endsWithJS (a ++ pat) pat = true := by
  unfold endsWithJS
  have hdata : (a ++ pat).data = a.data ++ pat.data := rfl
  rw [hdata]
  exact List.isSuffixOf_iff_suffix.mpr (List.suffix_append a.data pat.data)

theorem string_append_right_cancel {a b pat : String} (h : a ++ pat = b ++ pat) : a = b := by
  have hd : a.data ++ pat.data = b.data ++ pat.data := congrArg String.data h
  have : a.data = b.data := by
    have := List.append_inj_left' hd (by rfl)
    exact this
  cases a; cases b; exact congrArg String.mk this

theorem ne_of_endsWith_ne {a b pat : String} (ha : endsWithJS a pat = false)
    (hb : endsWithJS b pat = true) : a ≠ b := by
  intro h; rw [h] at ha; rw [ha] at hb; cases hb

theorem vaultGet_of_mem {v : Vault} (h : (v.map LocalFile.path).Nodup)
    {f : LocalFile} (hf : f ∈ v) : vaultGet v f.path = some f := by
  induction v with
  | nil => cases hf
  | cons g rest ih =>
    rcases List.mem_cons.mp hf with rfl | hf'
    · simp [vaultGet, List.find?_cons_of_pos]
    · have hne : g.path ≠ f.path := by
        intro he
        have : f.path ∈ rest.map LocalFile.path := List.mem_map_of_mem _ hf'
        rw [← he] at this
        exact (List.nodup_cons.mp h).1 this
      have : vaultGet rest f.path = some f :=
        ih (List.nodup_cons.mp h).2 hf'
      simpa [vaultGet, List.find?_cons_of_neg, hne] using this

theorem find?_map_entry {mk : LocalFile → FileEntry}
    (hmk : ∀ g, (mk g).path = g.path) {v : Vault}
    (h : (v.map LocalFile.path).Nodup) {f : LocalFile} (hf : f ∈ v) :
    (v.map mk).find? (fun e => e.path == f.path) = some (mk f) := by
  induction v with
  | nil => cases hf
  | cons g rest ih =>
    rcases List.mem_cons.mp hf with rfl | hf'
    · have : (mk f).path == f.path := by simp [hmk]
      simp [List.find?_cons_of_pos, this]
    · have hne : (mk g).path ≠ f.path := by
        rw [hmk g]
        intro he
        have : f.path ∈ rest.map LocalFile.path := List.mem_map_of_mem _ hf'
        rw [← he] at this
        exact (List.nodup_cons.mp h).1 this
      have hrec := ih (List.nodup_cons.mp h).2 hf'
      simpa [List.find?_cons_of_neg, hne] using hrec

theorem storeGet_of_mem_nodup {s : Store} (h : (storeKeys s).Nodup)
    {k : String} {val : ObjVal} (hm : (k, val) ∈ s) : storeGet s k = some val := by
  induction s with
  | nil => cases hm
  | cons kv rest ih =>
    rcases List.mem_cons.mp hm with rfl | hm'
    · simp [storeGet, List.find?_cons_of_pos]
    · have hne : kv.1 ≠ k := by
        intro he
        have : k ∈ storeKeys rest := List.mem_map_of_mem _ hm'
        rw [← he] at this
        exact (List.nodup_cons.mp (by simpa [storeKeys] using h)).1 this
      have hrec := ih (by simpa [storeKeys] using (List.nodup_cons.mp (by simpa [storeKeys] using h)).2) hm'
      simpa [storeGet, List.find?_cons_of_neg, hne] using hrec

theorem upsert_of_not_mem {s : Store} {k : String} (val : ObjVal)
    (h : k ∉ storeKeys s) : upsert s k val = s ++ [(k, val)] := by
  unfold upsert
  rw [if_neg]
  intro hs
  rcases List.find?_isSome.mp hs with ⟨kv, hkv, hpred⟩
  exact h (by
    have : kv.1 = k := by simpa using hpred
    rw [← this]; exact List.mem_map_of_mem _ hkv)

theorem foldl_congr_const {α β : Type} {g : α → β → α} {s : α} {L : List β}
    (h : ∀ x ∈ L, g s x = s) : L.foldl g s = s := by
  induction L with
  | nil => rfl
  | cons x L ih =>
    simp only [List.foldl_cons, h x (List.mem_cons_self x L)]
    exact ih (fun y hy => h y (List.mem_cons_of_mem x hy))

theorem isSafeChar_jsLowerChar {c : Char} (h : isSafeChar c = true) :
    isSafeChar (jsLowerChar c) = true := by
  unfold jsLowerChar
  cases hf : lowerTable.find? (fun kv => kv.1 == c) with
  | none => exact h
  | some kv =>
    have hmem : kv ∈ lowerTable := List.mem_of_find?_eq_some hf
    have hkey : kv.1 = c := by simpa using List.find?_some hf
    have hall : lowerTable.all (fun p => !isSafeChar p.1 || isSafeChar p.2) = true := by
      decide
    have := List.all_eq_true.mp hall kv hmem
    rw [hkey, h] at this
    simpa using this

theorem uriUnreserved_of_safe {c : Char} (h : isSafeChar c = true) :
    uriUnreserved c = true := by
  unfold isSafeChar at h
  unfold uriUnreserved
  rcases (Bool.or_eq_true _ _).mp h with h' | h'
  · rcases (Bool.or_eq_true _ _).mp h' with h'' | h''
    · simp [h'']
    · simp [h'']
  · simp [h']

theorem encode_id_of_unreserved {l : List Char}
    (h : ∀ c ∈ l, uriUnreserved c = true) :
    encodeURIComponentS ⟨l⟩ = ⟨l⟩ := by
  unfold encodeURIComponentS
  congr 1
  induction l with
  | nil => rfl
  | cons c cs ih =>
    have hc := h c (List.mem_cons_self c cs)
    simp only [List.map_cons, List.flatten_cons, hc, if_pos]
    rw [ih (fun x hx => h x (List.mem_cons_of_mem c hx))]
    rfl

theorem nbspFix_of_safe {c : Char} (h : isSafeChar c = true) : nbspFix c = c := by
  unfold nbspFix
  split
  · next hcond =>
    rcases (Bool.or_eq_true _ _).mp hcond with h' | h' <;>
      · have := eq_of_beq h'
        subst this
        exact absurd h (by decide)
  · rfl

theorem bsFix_of_safe {c : Char} (h : isSafeChar c = true) : bsFix c = c := by
  unfold bsFix
  split
  · next hcond =>
    have := eq_of_beq hcond
    subst this
    exact absurd h (by decide)
  · rfl

theorem beq_slash_false_of_safe {c : Char} (h : isSafeChar c = true) :
    (c == '/') = false := by
  cases hc : c == '/' with
  | false => rfl
  | true =>
    have := eq_of_beq hc
    subst this
    exact absurd h (by decide)

theorem compFind_none_of_safe {a b : Char} (h : isSafeChar b = true) :
    compFind a b = none := by
  unfold compFind
  cases hf : nfdTable.find? (fun kv => kv.2 == [a, b]) with
  | none => rfl
  | some kv =>
    have hmem : kv ∈ nfdTable := List.mem_of_find?_eq_some hf
    have hval : kv.2 = [a, b] := by simpa using List.find?_some hf
    have hall : nfdTable.all
        (fun p => match p.2 with
          | [_, m] => !isSafeChar m
          | _ => false) = true := by decide
    have := List.all_eq_true.mp hall kv hmem
    rw [hval] at this
    simp only at this
    rw [h] at this
    cases this

theorem nfcList_of_safe {l : List Char} (h : ∀ c ∈ l, isSafeChar c = true) :
    nfcList l = l := by
  induction l with
  | nil => rfl
  | cons a t ih =>
    cases t with
    | nil => rfl
    | cons b rest =>
      have hb : isSafeChar b = true := h b (by simp)
      rw [nfcList, compFind_none_of_safe hb]
      have := ih (fun c hc => h c (List.mem_cons_of_mem a hc))
      rw [this]

theorem collapseSlashes_of_no_slash {l : List Char}
    (h : ∀ c ∈ l, (c == '/') = false) : collapseSlashes l = l := by
  induction l with
  | nil => rfl
  | cons a t ih =>
    cases t with
    | nil => rfl
    | cons b rest =>
      have ha := h a (by simp)
      rw [collapseSlashes, ha]
      simp only [Bool.false_and, if_neg (by simp : ¬ false = true)]
      rw [ih (fun c hc => h c (List.mem_cons_of_mem a hc))]

theorem dropWhile_of_all_false {p : Char → Bool} {l : List Char}
    (h : ∀ c ∈ l, p c = false) : l.dropWhile p = l := by
  cases l with
  | nil => rfl
  | cons a t =>
    rw [List.dropWhile_cons, h a (by simp)]
    simp

theorem trimSlashes_of_no_slash {l : List Char}
    (h : ∀ c ∈ l, (c == '/') = false) : trimSlashes l = l := by
  unfold trimSlashes
  rw [dropWhile_of_all_false h]
  rw [dropWhile_of_all_false (fun c hc => h c (List.mem_reverse.mp hc))]
  exact List.reverse_reverse l

theorem normalizePathO_of_safe {l : List Char}
    (hsafe : ∀ c ∈ l, isSafeChar c = true) (hne : l ≠ []) :
    normalizePathO ⟨l⟩ = ⟨l⟩ := by
  unfold normalizePathO
  have h1 : (String.mk l).data.map nbspFix = l := by
    show l.map nbspFix = l
    rw [List.map_congr_left (fun c hc => nbspFix_of_safe (hsafe c hc))]
    exact List.map_id l
  rw [h1, nfcList_of_safe hsafe]
  have h2 : l.map bsFix = l := by
    rw [List.map_congr_left (fun c hc => bsFix_of_safe (hsafe c hc))]
    exact List.map_id l
  rw [h2]
  have hns : ∀ c ∈ l, (c == '/') = false :=
    fun c hc => beq_slash_false_of_safe (hsafe c hc)
  rw [collapseSlashes_of_no_slash hns, trimSlashes_of_no_slash hns]
  rw [if_neg hne]

theorem countKey_of_not_mem {s : Store} {k : String} (h : k ∉ storeKeys s) :
    countKey s k = 0 := by
  unfold countKey
  rw [List.countP_eq_zero]
  intro kv hkv
  simp only [beq_iff_eq]
  intro he
  exact h (he ▸ List.mem_map_of_mem _ hkv)

theorem countKey_of_nodup_mem {s : Store} (hnd : (storeKeys s).Nodup)
    {k : String} (h : k ∈ storeKeys s) : countKey s k = 1 := by
  induction s with
  | nil => cases h
  | cons kv rest ih =>
    have hsk : storeKeys (kv :: rest) = kv.1 :: storeKeys rest := rfl
    rw [hsk] at hnd h
    have hnd' := List.nodup_cons.mp hnd
    unfold countKey
    rw [List.countP_cons]
    rcases List.mem_cons.mp h with rfl | hmem
    · have hz : countKey rest kv.1 = 0 := countKey_of_not_mem hnd'.1
      unfold countKey at hz
      simp [hz]
    · have hne : ¬ kv.1 = k := by
        intro he
        exact hnd'.1 (he ▸ hmem)
      have h1 : countKey rest k = 1 := ih hnd'.2 hmem
      unfold countKey at h1
      simp [hne, h1]

theorem storeKeys_upsert (s : Store) (k : String) (val : ObjVal) :
    storeKeys (upsert s k val) = if k ∈ storeKeys s then storeKeys s
      else storeKeys s ++ [k] := by
  unfold upsert
  by_cases hmem : k ∈ storeKeys s
  · rcases List.mem_map.mp hmem with ⟨kv0, hkv0, hk0⟩
    have hsome : (s.find? (fun kv => kv.1 == k)).isSome := by
      rw [List.find?_isSome]
      exact ⟨kv0, hkv0, by simp [hk0]⟩
    rw [if_pos hsome, if_pos hmem]
    unfold storeKeys
    rw [List.map_map]
    apply List.map_congr_left
    intro kv _
    by_cases hkk : kv.1 = k
    · simp [hkk]
    · simp [hkk]
  · have hnone : s.find? (fun kv => kv.1 == k) = none := by
      rw [List.find?_eq_none]
      intro kv hkv
      simp only [beq_iff_eq]
      intro he
      exact hmem (he ▸ List.mem_map_of_mem _ hkv)
    rw [hnone]
    simp only [Option.isSome_none, Bool.false_eq_true, if_false]
    rw [if_neg hmem]
    unfold storeKeys
    simp

theorem storeKeys_upsert_nodup {s : Store} (hnd : (storeKeys s).Nodup)
    (k : String) (val : ObjVal) : (storeKeys (upsert s k val)).Nodup := by
  rw [storeKeys_upsert]
  by_cases hmem : k ∈ storeKeys s
  · rwa [if_pos hmem]
  · rw [if_neg hmem]
    rw [List.nodup_append]
    exact ⟨hnd, List.nodup_singleton k, by
      intro a ha hb
      rcases List.mem_singleton.mp hb with rfl
      exact hmem ha⟩

theorem countKey_upsert_self {s : Store} (hnd : (storeKeys s).Nodup)
    (k : String) (val : ObjVal) : countKey (upsert s k val) k = 1 := by
  unfold upsert
  by_cases hmem : k ∈ storeKeys s
  · rcases List.mem_map.mp hmem with ⟨kv0, hkv0, hk0⟩
    have hsome : (s.find? (fun kv => kv.1 == k)).isSome := by
      rw [List.find?_isSome]
      exact ⟨kv0, hkv0, by simp [hk0]⟩
    rw [if_pos hsome]
    unfold countKey
    rw [List.countP_map]
    have hpt : ∀ kv ∈ s,
        ((fun kv => kv.1 == k) ∘ (fun kv => if kv.1 == k then (k, val) else kv)) kv = true
          ↔ (fun kv => kv.1 == k) kv = true := by
      intro kv _
      by_cases hkk : kv.1 = k
      · simp [hkk]
      · simp [hkk]
    rw [List.countP_congr hpt]
    exact countKey_of_nodup_mem hnd hmem
  · have hnone : s.find? (fun kv => kv.1 == k) = none := by
      rw [List.find?_eq_none]
      intro kv hkv
      simp only [beq_iff_eq]
      intro he
      exact hmem (he ▸ List.mem_map_of_mem _ hkv)
    rw [hnone]
    simp only [Option.isSome_none, Bool.false_eq_true, if_false]
    unfold countKey
    rw [List.countP_append]
    have hz : countKey s k = 0 := countKey_of_not_mem hmem
    unfold countKey at hz
    simp [hz]

theorem countKey_upsert_other {s : Store} {k k' : String} (hne : k' ≠ k)
    (val : ObjVal) : countKey (upsert s k val) k' = countKey s k' := by
  unfold upsert
  by_cases hsome : (s.find? (fun kv => kv.1 == k)).isSome
  · rw [if_pos hsome]
    unfold countKey
    rw [List.countP_map]
    apply List.countP_congr
    intro kv _
    constructor <;>
    · intro hx
      by_cases hkk : kv.1 = k
      · simp [hkk, Ne.symm hne, hne] at hx ⊢
      · simpa [hkk] using hx
  · rw [if_neg hsome]
    unfold countKey
    rw [List.countP_append]
    simp [Ne.symm hne, hne]

theorem string_ne_append_of_ne_empty {a pat : String} (h : pat ≠ "") :
    a ++ pat ≠ a := by
  intro he
  have hd : a.data ++ pat.data = a.data := congrArg String.data he
  have : pat.data = [] := by
    have := congrArg List.length hd
    simp at this
    exact List.eq_nil_of_length_eq_zero this
  exact h (by cases pat; simpa using congrArg String.mk this)

theorem foldl_append_flatten {α β : Type} (f : β → List α) (L : List β)
    (acc : List α) :
    L.foldl (fun a x => a ++ f x) acc = acc ++ (L.map f).flatten := by
  induction L generalizing acc with
  | nil => simp
  | cons x L ih => simp [ih]

theorem getRemoteFiles_eq (s : Store) :
    Main.getRemoteFiles s = (s.map (Main.remoteEntryOf s)).flatten := by
  unfold Main.getRemoteFiles
  simpa using foldl_append_flatten (Main.remoteEntryOf s) s []

theorem digitChar10_isDigit (m : Nat) : (digitChar10 m).isDigit = true := by
  unfold digitChar10
  split <;> decide

theorem natDigitsAux_all_digit (fuel n : Nat) :
    ∀ c ∈ natDigitsAux fuel n, c.isDigit = true := by
  induction fuel generalizing n with
  | zero => intro c hc; cases hc
  | succ fuel ih =>
    intro c hc
    rw [natDigitsAux] at hc
    by_cases hn : n < 10
    · rw [if_pos hn] at hc
      rcases List.mem_singleton.mp hc with rfl
      exact digitChar10_isDigit n
    · rw [if_neg hn] at hc
      rcases List.mem_append.mp hc with hc' | hc'
      · exact ih (n / 10) c hc'
      · rcases List.mem_singleton.mp hc' with rfl
        exact digitChar10_isDigit (n % 10)

theorem natDigitsAux_ne_nil (fuel n : Nat) (h : 0 < fuel) :
    natDigitsAux fuel n ≠ [] := by
  cases fuel with
  | zero => omega
  | succ fuel =>
    rw [natDigitsAux]
    by_cases hn : n < 10
    · simp [hn]
    · simp [hn]

theorem matchesVersionKey_fresh (ak ds ext : String)
    (hne : ds.data ≠ []) (hdig : ∀ c ∈ ds.data, c.isDigit = true) :
    P0.matchesVersionKey ak ext (ak ++ "__" ++ ds ++ "." ++ ext) = true := by
  unfold P0.matchesVersionKey
  have hdata : (ak ++ "__" ++ ds ++ "." ++ ext).data
      = (ak.data ++ ['_', '_']) ++ (ds.data ++ ('.' :: ext.data)) := by
    show ak.data ++ "__".data ++ ds.data ++ ".".data ++ ext.data
      = (ak.data ++ ['_', '_']) ++ (ds.data ++ ('.' :: ext.data))
    simp [List.append_assoc]
  simp only [hdata]
  have h1 : (ak.data ++ ['_', '_']).isPrefixOf
      ((ak.data ++ ['_', '_']) ++ (ds.data ++ ('.' :: ext.data))) = true :=
    List.isPrefixOf_iff_prefix.mpr (List.prefix_append _ _)
  have h2 : ('.' :: ext.data).isSuffixOf
      ((ak.data ++ ['_', '_']) ++ (ds.data ++ ('.' :: ext.data))) = true := by
    apply List.isSuffixOf_iff_suffix.mpr
    rw [← List.append_assoc]
    exact List.suffix_append _ _
  rw [h1, h2]
  have hdrop : ((ak.data ++ ['_', '_']) ++ (ds.data ++ ('.' :: ext.data))).drop
      (ak.data ++ ['_', '_']).length = ds.data ++ ('.' :: ext.data) :=
    List.drop_left _ _
  rw [hdrop]
  have hlen : (ds.data ++ ('.' :: ext.data)).length - ('.' :: ext.data).length
      = ds.data.length := by
    rw [List.length_append]; omega
  rw [hlen, List.take_left]
  have hempty : ds.data.isEmpty = false := by
    cases hd : ds.data with
    | nil => exact absurd hd hne
    | cons a l => rfl
  rw [hempty]
  simp only [Bool.not_false, Bool.true_and]
  exact List.all_eq_true.mpr hdig

theorem removeIf_foldl_eq_filter (matchB : String → Bool) (s : Store) :
    (storeKeys s).foldl
      (fun st name => if matchB name then removeKey st name else st) s
      = s.filter (fun kv => !matchB kv.1) := by
  have hstep : ∀ (st : Store) (name : String),
      (if matchB name then removeKey st name else st)
        = st.filter (fun kv => !(matchB name && kv.1 == name)) := by
    intro st name
    by_cases hm : matchB name = true
    · rw [if_pos hm]
      unfold removeKey
      apply List.filter_congr
      intro kv _
      rw [hm]
      simp
    · rw [if_neg hm]
      rw [Bool.not_eq_true] at hm
      rw [hm]
      simp
  have hgen : ∀ (L : List String) (st : Store),
      L.foldl (fun st name => if matchB name then removeKey st name else st) st
        = st.filter (fun kv => !(matchB kv.1 && L.contains kv.1)) := by
    intro L
    induction L with
    | nil => intro st; simp
    | cons name L ih =>
      intro st
      rw [List.foldl_cons, hstep, ih, List.filter_filter]
      apply List.filter_congr
      intro kv _
      by_cases hk : kv.1 = name
      · subst hk
        by_cases hm : matchB kv.1 = true
        · simp [hm]
        · rw [Bool.not_eq_true] at hm
          simp [hm]
      · have : (kv.1 == name) = false := by simp [hk]
        simp [this, hk]
  rw [hgen]
  apply List.filter_congr
  intro kv hkv
  have : (storeKeys s).contains kv.1 = true :=
    List.elem_eq_true_of_mem (List.mem_map_of_mem _ hkv)
  rw [this]
  simp

/-- The store transition of `part_000 upload` for one resolving path:
every already-stored version of the alias/extension pair is removed, the
fresh timestamped payload is appended, and nothing else changes. -/
theorem p0_uploadOne_spec (v : Vault) (s : Store) (p : String) (ts : Nat)
    (file : LocalFile) (hv : vaultGet v p = some file) :
    (P0.uploadOne v s p ts).1 =
      s.filter (fun kv =>
        !P0.matchesVersionKey (P0.getAlias p) (fileExt file.path) kv.1)
      ++ [(P0.getAlias p ++ "__" ++ natToStr ts ++ "." ++ fileExt file.path,
           ObjVal.payload file.content (getMimeType (fileExt file.path)))] := by
  unfold P0.uploadOne
  rw [hv]
  simp only
  rw [removeIf_foldl_eq_filter]
  have hmatch : P0.matchesVersionKey (P0.getAlias p) (fileExt file.path)
      (P0.getAlias p ++ "__" ++ natToStr ts ++ "." ++ fileExt file.path) = true :=
    matchesVersionKey_fresh _ _ _
      (natDigitsAux_ne_nil (ts + 1) ts (by omega))
      (natDigitsAux_all_digit (ts + 1) ts)
  apply upsert_of_not_mem
  intro hmem
  rcases List.mem_map.mp hmem with ⟨kv, hkv, hk⟩
  have := List.of_mem_filter hkv
  rw [hk] at this
  rw [hmatch] at this
  cases this

theorem uploadFile_fresh {v : Vault} {st : Store} {f : LocalFile}
    (hv : vaultGet v f.path = some f)
    (halias : Main.getAlias f.path = f.path)
    (hp : f.path ∉ storeKeys st)
    (hm : f.path ++ ".meta.json" ∉ storeKeys st) :
    (Main.uploadFile v st f.path).1 = st ++ mainPairsOf f := by
  unfold Main.uploadFile
  rw [hv]
  simp only [halias]
  rw [upsert_of_not_mem _ hp]
  have hm' : f.path ++ ".meta.json" ∉ storeKeys (st ++ [(f.path,
      ObjVal.payload f.content (getMimeType (fileExt f.path)))]) := by
    unfold storeKeys
    rw [List.map_append]
    intro hmem
    rcases List.mem_append.mp hmem with h' | h'
    · exact hm h'
    · rcases List.mem_singleton.mp (by simpa using h') with h''
      exact string_ne_append_of_ne_empty (by decide) h''
  rw [upsert_of_not_mem _ hm']
  rw [List.append_assoc]
  rfl

theorem storeKeys_append_pairs (st : Store) (f : LocalFile) :
    storeKeys (st ++ mainPairsOf f)
      = storeKeys st ++ [f.path, f.path ++ ".meta.json"] := by
  unfold storeKeys
  rw [List.map_append]
  rfl

theorem upload_fold_spec (v : Vault) :
    ∀ (w : List LocalFile) (st : Store),
    (∀ f ∈ w, vaultGet v f.path = some f ∧ Main.getAlias f.path = f.path ∧
      endsWithJS f.path ".meta.json" = false) →
    (w.map LocalFile.path).Nodup →
    (∀ f ∈ w, f.path ∉ storeKeys st ∧ f.path ++ ".meta.json" ∉ storeKeys st) →
    w.foldl (fun st f => (Main.uploadFile v st f.path).1) st
      = st ++ (w.map mainPairsOf).flatten := by
  intro w
  induction w with
  | nil => intro st _ _ _; simp
  | cons f w' ih =>
    intro st hprops hnd hfresh
    rw [List.foldl_cons]
    obtain ⟨hv, halias, hef⟩ := hprops f (List.mem_cons_self f w')
    obtain ⟨hp, hm⟩ := hfresh f (List.mem_cons_self f w')
    rw [uploadFile_fresh hv halias hp hm]
    rw [List.map_cons] at hnd
    have hnd' := List.nodup_cons.mp hnd
    have hrec := ih (st ++ mainPairsOf f)
      (fun g hg => hprops g (List.mem_cons_of_mem f hg))
      hnd'.2
      (by
        intro g hg
        obtain ⟨hgp, hgm⟩ := hfresh g (List.mem_cons_of_mem f hg)
        obtain ⟨_, hgalias, hgef⟩ := hprops g (List.mem_cons_of_mem f hg)
        have hgne : g.path ≠ f.path := by
          intro he
          apply hnd'.1
          rw [← he]
          exact List.mem_map_of_mem _ hg
        rw [storeKeys_append_pairs]
        constructor
        · intro hmem
          rcases List.mem_append.mp hmem with h' | h'
          · exact hgp h'
          · simp only [List.mem_cons, List.not_mem_nil, or_false] at h'
            rcases h' with h'' | h''
            · exact hgne h''
            · exact ne_of_endsWith_ne hgef (endsWithJS_append f.path ".meta.json") h''
        · intro hmem
          rcases List.mem_append.mp hmem with h' | h'
          · exact hgm h'
          · simp only [List.mem_cons, List.not_mem_nil, or_false] at h'
            rcases h' with h'' | h''
            · exact ne_of_endsWith_ne hef (endsWithJS_append g.path ".meta.json") h''.symm
            · exact hgne (string_append_right_cancel h''))
    rw [hrec, List.append_assoc]
    rfl

theorem mem_keys_pairs_flatten {w : List LocalFile} {x : String} :
    x ∈ storeKeys ((w.map mainPairsOf).flatten)
      ↔ ∃ g ∈ w, x = g.path ∨ x = g.path ++ ".meta.json" := by
  induction w with
  | nil => simp [storeKeys]
  | cons f w' ih =>
    have hsplit : storeKeys ((mainPairsOf f) ++ (w'.map mainPairsOf).flatten)
        = storeKeys (mainPairsOf f) ++ storeKeys ((w'.map mainPairsOf).flatten) := by
      unfold storeKeys; rw [List.map_append]
    constructor
    · intro hx
      simp only [List.map_cons, List.flatten_cons] at hx
      rw [hsplit] at hx
      rcases List.mem_append.mp hx with h' | h'
      · refine ⟨f, List.mem_cons_self f w', ?_⟩
        simpa [mainPairsOf, storeKeys] using h'
      · rcases ih.mp h' with ⟨g, hg, hgx⟩
        exact ⟨g, List.mem_cons_of_mem f hg, hgx⟩
    · rintro ⟨g, hg, hgx⟩
      simp only [List.map_cons, List.flatten_cons]
      rw [hsplit]
      rcases List.mem_cons.mp hg with rfl | hg'
      · apply List.mem_append.mpr
        left
        rcases hgx with rfl | rfl <;> simp [mainPairsOf, storeKeys]
      · exact List.mem_append.mpr (Or.inr (ih.mpr ⟨g, hg', hgx⟩))

theorem keys_nodup_pairs_flatten {w : List LocalFile}
    (hnd : (w.map LocalFile.path).Nodup)
    (hmeta : ∀ f ∈ w, endsWithJS f.path ".meta.json" = false) :
    (storeKeys ((w.map mainPairsOf).flatten)).Nodup := by
  induction w with
  | nil => simp [storeKeys]
  | cons f w' ih =>
    rw [List.map_cons] at hnd
    have hnd' := List.nodup_cons.mp hnd
    have hef := hmeta f (List.mem_cons_self f w')
    have hkeys : storeKeys ((mainPairsOf f) ++ (w'.map mainPairsOf).flatten)
        = f.path :: (f.path ++ ".meta.json") :: storeKeys ((w'.map mainPairsOf).flatten) := by
      unfold storeKeys; rw [List.map_append]; rfl
    simp only [List.map_cons, List.flatten_cons]
    rw [hkeys]
    have hrest := ih hnd'.2 (fun g hg => hmeta g (List.mem_cons_of_mem f hg))
    have hgchar : ∀ x ∈ storeKeys ((w'.map mainPairsOf).flatten),
        ∃ g ∈ w', x = g.path ∨ x = g.path ++ ".meta.json" :=
      fun x hx => mem_keys_pairs_flatten.mp hx
    apply List.nodup_cons.mpr
    constructor
    · intro hmem
      rcases List.mem_cons.mp hmem with h' | h'
      · exact string_ne_append_of_ne_empty (by decide) h'.symm
      · rcases hgchar _ h' with ⟨g, hg, hgx⟩
        have hgne : f.path ≠ g.path := by
          intro he
          apply hnd'.1
          rw [he]
          exact List.mem_map_of_mem _ hg
        rcases hgx with h'' | h''
        · exact hgne h''
        · exact ne_of_endsWith_ne hef
            (endsWithJS_append g.path ".meta.json") h''
    · apply List.nodup_cons.mpr
      constructor
      · intro hmem
        rcases hgchar _ hmem with ⟨g, hg, hgx⟩
        have hgef := hmeta g (List.mem_cons_of_mem f hg)
        rcases hgx with h'' | h''
        · exact ne_of_endsWith_ne hgef
            (endsWithJS_append f.path ".meta.json") h''.symm
        · have : f.path = g.path := string_append_right_cancel h''
          apply hnd'.1
          rw [this]
          exact List.mem_map_of_mem _ hg
      · exact hrest

theorem pairs_mem_flatten {w : List LocalFile} {f : LocalFile} (hf : f ∈ w) :
    (f.path, ObjVal.payload f.content (getMimeType (fileExt f.path)))
        ∈ (w.map mainPairsOf).flatten ∧
    (f.path ++ ".meta.json",
        ObjVal.sidecar ⟨fileName f.path, f.path, f.mtime⟩)
        ∈ (w.map mainPairsOf).flatten := by
  constructor <;>
  · apply List.mem_flatten.mpr
    exact ⟨mainPairsOf f, List.mem_map_of_mem _ hf, by simp [mainPairsOf]⟩

theorem getRemoteFiles_pairs (v : Vault)
    (hnd : (v.map LocalFile.path).Nodup)
    (hmeta : ∀ f ∈ v, endsWithJS f.path ".meta.json" = false)
    (hrep : ∀ f ∈ v, replaceOnce (f.path ++ ".meta.json") ".meta.json" "" = f.path) :
    Main.getRemoteFiles ((v.map mainPairsOf).flatten) = v.map mainRemoteEntry := by
  rw [getRemoteFiles_eq]
  have hndk := keys_nodup_pairs_flatten hnd hmeta
  have hmain : ∀ (w : List LocalFile), (∀ f ∈ w, f ∈ v) →
      ((w.map mainPairsOf).flatten.map
          (Main.remoteEntryOf ((v.map mainPairsOf).flatten))).flatten
        = w.map mainRemoteEntry := by
    intro w
    induction w with
    | nil => intro _; rfl
    | cons f w' ih =>
      intro hsub
      have hfv := hsub f (List.mem_cons_self f w')
      have hef := hmeta f hfv
      have hpm := pairs_mem_flatten (w := v) hfv
      have hget : storeGet ((v.map mainPairsOf).flatten) (f.path ++ ".meta.json")
          = some (ObjVal.sidecar ⟨fileName f.path, f.path, f.mtime⟩) :=
        storeGet_of_mem_nodup hndk hpm.2
      have hhead1 : Main.remoteEntryOf ((v.map mainPairsOf).flatten)
          (f.path, ObjVal.payload f.content (getMimeType (fileExt f.path))) = [] := by
        unfold Main.remoteEntryOf
        simp [hef]
      have hhead2 : Main.remoteEntryOf ((v.map mainPairsOf).flatten)
          (f.path ++ ".meta.json",
            ObjVal.sidecar ⟨fileName f.path, f.path, f.mtime⟩)
          = [mainRemoteEntry f] := by
        unfold Main.remoteEntryOf
        simp only [endsWithJS_append f.path ".meta.json", if_pos, hget,
          hrep f hfv]
        rfl
      simp only [List.map_cons, List.flatten_cons, List.map_append,
        List.flatten_append]
      rw [show (mainPairsOf f).map
            (Main.remoteEntryOf ((v.map mainPairsOf).flatten))
          = [Main.remoteEntryOf ((v.map mainPairsOf).flatten)
              (f.path, ObjVal.payload f.content (getMimeType (fileExt f.path))),
             Main.remoteEntryOf ((v.map mainPairsOf).flatten)
              (f.path ++ ".meta.json",
                ObjVal.sidecar ⟨fileName f.path, f.path, f.mtime⟩)] from rfl]
      rw [ih (fun g hg => hsub g (List.mem_cons_of_mem f hg))]
      rw [hhead1, hhead2]
      rfl
  exact hmain v (fun _ h => h)

theorem syncFiles_empty_spec (v : Vault) (c : Nat)
    (hnd : (v.map LocalFile.path).Nodup)
    (halias : ∀ f ∈ v, Main.getAlias f.path = f.path)
    (hmeta : ∀ f ∈ v, endsWithJS f.path ".meta.json" = false) :
    (Main.syncFiles v [] c).1 = v ∧
    (Main.syncFiles v [] c).2.1 = (v.map mainPairsOf).flatten := by
  unfold Main.syncFiles
  have hrem : Main.getRemoteFiles [] = [] := rfl
  rw [hrem]
  constructor
  · rfl
  · simp only
    show (Main.getLocalFiles v).foldl (Main.step1 v []) []
        = (v.map mainPairsOf).flatten
    have hloc : Main.getLocalFiles v = v.map mainLocalEntry := rfl
    rw [hloc, List.foldl_map]
    have hfn : (fun (st : Store) (f : LocalFile) =>
          Main.step1 v [] st (mainLocalEntry f))
        = fun (st : Store) (f : LocalFile) => (Main.uploadFile v st f.path).1 := rfl
    rw [hfn]
    have := upload_fold_spec v v []
      (fun f hf => ⟨vaultGet_of_mem hnd hf, halias f hf, hmeta f hf⟩)
      hnd
      (fun f _ => by constructor <;> simp [storeKeys])
    simpa using this

theorem syncFiles_agree_spec (v : Vault) (c : Nat)
    (hnd : (v.map LocalFile.path).Nodup)
    (hmeta : ∀ f ∈ v, endsWithJS f.path ".meta.json" = false)
    (hrep : ∀ f ∈ v, replaceOnce (f.path ++ ".meta.json") ".meta.json" "" = f.path) :
    Main.syncFiles v ((v.map mainPairsOf).flatten) c
      = (v, (v.map mainPairsOf).flatten, []) := by
  unfold Main.syncFiles
  rw [getRemoteFiles_pairs v hnd hmeta hrep]
  have hloc : Main.getLocalFiles v = v.map mainLocalEntry := rfl
  rw [hloc]
  have hfr : ∀ f ∈ v, (v.map mainRemoteEntry).find?
      (fun r => r.path == f.path) = some (mainRemoteEntry f) :=
    fun f hf => find?_map_entry (fun g => rfl) hnd hf
  have hfl : ∀ f ∈ v, (v.map mainLocalEntry).find?
      (fun r => r.path == f.path) = some (mainLocalEntry f) :=
    fun f hf => find?_map_entry (fun g => rfl) hnd hf
  have hs1 : (v.map mainLocalEntry).foldl
      (Main.step1 v (v.map mainRemoteEntry)) ((v.map mainPairsOf).flatten)
      = (v.map mainPairsOf).flatten := by
    apply foldl_congr_const
    intro e he
    rcases List.mem_map.mp he with ⟨f, hf, rfl⟩
    unfold Main.step1
    rw [show (fun r => r.path == (mainLocalEntry f).path)
        = (fun (r : FileEntry) => r.path == f.path) from rfl]
    rw [hfr f hf]
    simp [mainLocalEntry, mainRemoteEntry]
  have hacts1 : (v.map mainLocalEntry).filterMap
      (Main.branchOf (v.map mainRemoteEntry)) = [] := by
    rw [List.filterMap_eq_nil_iff]
    intro e he
    rcases List.mem_map.mp he with ⟨f, hf, rfl⟩
    unfold Main.branchOf
    rw [show (fun r => r.path == (mainLocalEntry f).path)
        = (fun (r : FileEntry) => r.path == f.path) from rfl]
    rw [hfr f hf]
    simp [mainLocalEntry, mainRemoteEntry]
  have hv1 : (v.map mainRemoteEntry).foldl
      (fun vv file =>
        if ((v.map mainLocalEntry).find? (fun f => f.path == file.path)).isSome
        then vv
        else Main.downloadFile vv ((v.map mainPairsOf).flatten)
          file.path c) v = v := by
    apply foldl_congr_const
    intro e he
    rcases List.mem_map.mp he with ⟨f, hf, rfl⟩
    rw [show (fun (x : FileEntry) => x.path == (mainRemoteEntry f).path)
        = (fun (x : FileEntry) => x.path == f.path) from rfl]
    rw [hfl f hf]
    rfl
  have hacts2 : (v.map mainRemoteEntry).filterMap
      (fun file =>
        if ((v.map mainLocalEntry).find? (fun f => f.path == file.path)).isSome
        then none
        else some (Main.SyncAction.download file.path)) = [] := by
    rw [List.filterMap_eq_nil_iff]
    intro e he
    rcases List.mem_map.mp he with ⟨f, hf, rfl⟩
    rw [show (fun (x : FileEntry) => x.path == (mainRemoteEntry f).path)
        = (fun (x : FileEntry) => x.path == f.path) from rfl]
    rw [hfl f hf]
    rfl
  simp only [hs1, hacts1, hacts2, hv1]
  rfl

/-- C9: a path that no longer resolves to a vault file at upload time is
dropped silently — both `main.ts uploadFile` and the `part_000 upload` loop
body return with the store unchanged and perform no remote write. -/
theorem c9_vanished_upload_dropped (v : Vault) (s : Store) (p : String)
    (ts : Nat) (h : vaultGet v p = none) :
    Main.uploadFile v s p = (s, []) ∧ P0.uploadOne v s p ts = (s, []) := by
  constructor
  · unfold Main.uploadFile
    rw [h]
  · unfold P0.uploadOne
    rw [h]

/-- Witness for C9 at a concrete input: the vault holds only `a.md`, so an
upload for the vanished path `gone.md` leaves the store untouched. -/
theorem c9_vanished_upload_dropped_witness :
    Main.uploadFile [⟨"a.md", 5, [1]⟩] [("k", ObjVal.payload [2] "m")] "gone.md"
        = ([("k", ObjVal.payload [2] "m")], []) ∧
    P0.uploadOne [⟨"a.md", 5, [1]⟩] [("k", ObjVal.payload [2] "m")] "gone.md" 7
        = ([("k", ObjVal.payload [2] "m")], []) :=
  c9_vanished_upload_dropped _ _ _ _ (by decide)

/-- C10: `getMimeType` is total and case-insensitive: it agrees with itself
on the lower-cased extension, and any extension whose lower-casing is not a
table key maps to exactly `application/octet-stream`. -/
theorem c10_mime_total_case_insensitive (e : String) :
    getMimeType e = getMimeType (jsToLowerStr e) ∧
    (mimeTypes.find? (fun kv => kv.1 == jsToLowerStr e) = none →
      getMimeType e = "application/octet-stream") := by
  constructor
  · unfold getMimeType
    rw [jsToLowerStr_idem]
  · intro h
    unfold getMimeType
    rw [h]
    rfl

/-- Witness for C10 at a concrete input: `EXE` lower-cases to `exe`, which
is not a table key, so the fallback MIME type is returned. -/
theorem c10_mime_total_case_insensitive_witness :
    (getMimeType "EXE" = getMimeType (jsToLowerStr "EXE")) ∧
    getMimeType "EXE" = "application/octet-stream" :=
  ⟨(c10_mime_total_case_insensitive "EXE").1,
   (c10_mime_total_case_insensitive "EXE").2 (by decide)⟩

/-- Counterexample for C2: in the `part_001 syncFiles` pass, a local file
`a.md` whose path is absent from the remote inventory is deleted locally,
with no delete event involved — absence alone triggers `deleteLocalFile`. -/
theorem c2_absence_delete_counterexample :
    P1.syncActions [⟨"a.md", "a.md", 5⟩] [] = [P1.Action.deleteLocal "a.md"] := by
  decide

/-- C2 as amended: during a `part_001` full-sync pass, every local file
with no remote counterpart is scheduled for local deletion — deletion is
inferred from absence during the pass. -/
theorem c2_absence_delete_amended (locals remotes : List FileEntry)
    (f : FileEntry) (hf : f ∈ locals)
    (hr : remotes.find? (fun r => r.path == f.path) = none) :
    P1.Action.deleteLocal f.path ∈ P1.syncActions locals remotes := by
  unfold P1.syncActions
  apply List.mem_append.mpr
  left
  apply List.mem_flatten.mpr
  refine ⟨P1.localBranch locals remotes f, List.mem_map_of_mem _ hf, ?_⟩
  unfold P1.localBranch
  rw [hr]
  have hsome : (locals.find? (fun g => g.path == f.path)).isSome :=
    List.find?_isSome.mpr ⟨f, hf, by simp⟩
  rcases Option.isSome_iff_exists.mp hsome with ⟨g, hg⟩
  rw [hg]
  simp

/-- Witness for C2 (amended) at a concrete input. -/
theorem c2_absence_delete_amended_witness :
    P1.Action.deleteLocal "b.md" ∈
      P1.syncActions [⟨"a.md", "a.md", 5⟩, ⟨"b.md", "b.md", 6⟩]
        [⟨"a.md", "a.md", 5⟩] :=
  c2_absence_delete_amended _ _ ⟨"b.md", "b.md", 6⟩ (by decide) (by decide)

/-- Counterexample for C3: the `part_000 upload` writes the payload
`a.md__7.md` without any sidecar — after the successful payload upload no
object exists under `a.md__7.md.meta.json` (the metadata write is commented
out in that variant). -/
theorem c3_part000_no_sidecar_counterexample :
    (P0.uploadOne [⟨"a.md", 7, [1]⟩] [] "a.md" 7).1
        = [("a.md__7.md", ObjVal.payload [1] "text/markdown")] ∧
    storeGet (P0.uploadOne [⟨"a.md", 7, [1]⟩] [] "a.md" 7).1
        "a.md__7.md.meta.json" = none := by
  constructor <;> decide

/-- C3 as amended, for the `main.ts` upload/download path: (1) a resolving
`uploadFile` writes the payload key first and then exactly one sidecar
under `payloadKey + ".meta.json"`; (2) the remote inventory is built only
from present sidecars, so a payload with no sidecar is never consumed by
the pass; (3) `downloadFile` skips (vault unchanged) whenever the sidecar
is missing.  The `part_000` variant violates the pairing — see the
counterexample. -/
theorem c3_sidecar_pairing_amended :
    (∀ (v : Vault) (s : Store) (p : String) (file : LocalFile),

      vaultGet v p = some file → (storeKeys s).Nodup →
      (Main.uploadFile v s p).2
          = [Main.getAlias file.path, Main.getAlias file.path ++ ".meta.json"] ∧
        countKey (Main.uploadFile v s p).1
          (Main.getAlias file.path ++ ".meta.json") = 1) ∧
    (∀ s : Store,
      (∀ kv ∈ s, endsWithJS kv.1 ".meta.json" = true →
        replaceOnce kv.1 ".meta.json" "" ++ ".meta.json" = kv.1) →
      ∀ e ∈ Main.getRemoteFiles s,
        ∃ m, (e.path ++ ".meta.json", ObjVal.sidecar m) ∈ s) ∧
    (∀ (v : Vault) (s : Store) (p : String) (clock : Nat),
      storeGet s (p ++ ".meta.json") = none →
      Main.downloadFile v s p clock = v) := by
  refine ⟨?_, ?_, ?_⟩
  · intro v s p file hv hnd
    unfold Main.uploadFile
    rw [hv]
    constructor
    · rfl
    · exact countKey_upsert_self
        (storeKeys_upsert_nodup hnd (Main.getAlias file.path) _) _ _
  · intro s hwf e he
    rw [getRemoteFiles_eq] at he
    rcases List.mem_flatten.mp he with ⟨le, hle, hee⟩
    rcases List.mem_map.mp hle with ⟨kv, hkv, rfl⟩
    unfold Main.remoteEntryOf at hee
    cases hend : endsWithJS kv.1 ".meta.json" with
    | false => rw [hend] at hee; simp at hee
    | true =>
      rw [hend] at hee
      simp only [if_pos] at hee
      cases hget : storeGet s kv.1 with
      | none => rw [hget] at hee; simp at hee
      | some val =>
        rw [hget] at hee
        cases val with
        | payload content mime => simp at hee
        | sidecar m =>
          simp only [List.mem_singleton] at hee
          subst hee
          refine ⟨m, ?_⟩
          simp only
          rw [hwf kv hkv hend]
          rcases Option.map_eq_some'.mp hget with ⟨kv', hfind, hval⟩
          have hmem := List.mem_of_find?_eq_some hfind
          have hkey : kv'.1 = kv.1 := by simpa using List.find?_some hfind
          rw [← hkey, ← hval]
          exact hmem
  · intro v s p clock h
    unfold Main.downloadFile
    cases hp : storeGet s p with
    | none => rfl
    | some val =>
      cases val with
      | payload content mime => rw [h]
      | sidecar m => rfl

/-- Witness for C3 (amended) at concrete inputs: uploading `a.md` into an
empty store writes `a.md` then `a.md.meta.json` with a single sidecar copy;
the inventory of a one-sidecar store points back at that sidecar; a
download with no sidecar present leaves the vault unchanged. -/
theorem c3_sidecar_pairing_amended_witness :
    ((Main.uploadFile [⟨"a.md", 5, [1]⟩] [] "a.md").2
        = ["a.md", "a.md.meta.json"] ∧
      countKey (Main.uploadFile [⟨"a.md", 5, [1]⟩] [] "a.md").1
        "a.md.meta.json" = 1) ∧
    (∀ e ∈ Main.getRemoteFiles
        [("b.md.meta.json", ObjVal.sidecar ⟨"b.md", "b.md", 10⟩)],
      ∃ m, (e.path ++ ".meta.json", ObjVal.sidecar m)
        ∈ [("b.md.meta.json", ObjVal.sidecar ⟨"b.md", "b.md", 10⟩)]) ∧
    Main.downloadFile [] [("x.md", ObjVal.payload [1] "text/markdown")]
        "x.md" 9 = [] := by
  refine ⟨?_, ?_, ?_⟩
  · have := (c3_sidecar_pairing_amended.1) [⟨"a.md", 5, [1]⟩] [] "a.md"
      ⟨"a.md", 5, [1]⟩ (by decide) (by decide)
    simpa using this
  · exact c3_sidecar_pairing_amended.2.1 _ (by decide)
  · exact c3_sidecar_pairing_amended.2.2 [] _ "x.md" 9 (by decide)

/-- Counterexample for C4: alias `a.md` holds five versions (`t = 1..5`);
the only retention mechanism in the code — the cleanup inside
`part_000 upload` — leaves exactly one version (the fresh upload at
`t = 6`), not `min(3, 5) = 3`, and none of the previously stored versions
survives. -/
theorem c4_retention_counterexample :
    (P0.uploadOne [⟨"a.md", 6, [3]⟩]
      [("a.md__1.md", ObjVal.payload [1] "text/markdown"),
       ("a.md__2.md", ObjVal.payload [2] "text/markdown"),
       ("a.md__3.md", ObjVal.payload [3] "text/markdown"),
       ("a.md__4.md", ObjVal.payload [4] "text/markdown"),
       ("a.md__5.md", ObjVal.payload [5] "text/markdown")] "a.md" 6).1
      = [("a.md__6.md", ObjVal.payload [3] "text/markdown")] ∧
    ((P0.uploadOne [⟨"a.md", 6, [3]⟩]
      [("a.md__1.md", ObjVal.payload [1] "text/markdown"),
       ("a.md__2.md", ObjVal.payload [2] "text/markdown"),
       ("a.md__3.md", ObjVal.payload [3] "text/markdown"),
       ("a.md__4.md", ObjVal.payload [4] "text/markdown"),
       ("a.md__5.md", ObjVal.payload [5] "text/markdown")] "a.md" 6).1.countP
        (fun kv => P0.matchesVersionKey "a.md" "md" kv.1)) = 1 ∧ (1 : Nat) ≠ min 3 5 := by
  refine ⟨by decide, by decide, by decide⟩

/-- C4 as amended: the code has no N-version retention; the cleanup inside
`part_000 upload` deletes every stored version matching the alias/extension
pattern and then uploads the fresh one, so after the run the store is the
non-matching remainder plus exactly the single new version. -/
theorem c4_upload_purges_all_versions (v : Vault) (s : Store) (p : String)
    (ts : Nat) (file : LocalFile) (hv : vaultGet v p = some file) :
    (P0.uploadOne v s p ts).1 =
      s.filter (fun kv =>
        !P0.matchesVersionKey (P0.getAlias p) (fileExt file.path) kv.1)
      ++ [(P0.getAlias p ++ "__" ++ natToStr ts ++ "." ++ fileExt file.path,
           ObjVal.payload file.content (getMimeType (fileExt file.path)))] :=
  p0_uploadOne_spec v s p ts file hv

/-- Witness for C4 (amended) at a concrete input: re-uploading `a.md` at
`t = 6` over two stored versions keeps none of them. -/
theorem c4_upload_purges_all_versions_witness :
    (P0.uploadOne [⟨"a.md", 6, [3]⟩]
      [("a.md__1.md", ObjVal.payload [1] "text/markdown"),
       ("other.txt", ObjVal.payload [9] "text/plain")] "a.md" 6).1 =
      [("a.md__1.md", ObjVal.payload [1] "text/markdown"),
       ("other.txt", ObjVal.payload [9] "text/plain")].filter (fun kv =>
        !P0.matchesVersionKey (P0.getAlias "a.md") (fileExt "a.md") kv.1)
      ++ [(P0.getAlias "a.md" ++ "__" ++ natToStr 6 ++ "." ++ fileExt "a.md",
           ObjVal.payload [3] (getMimeType (fileExt "a.md")))] :=
  c4_upload_purges_all_versions _ _ _ _ ⟨"a.md", 6, [3]⟩ (by decide)

/-- Counterexample for C6: the `main.ts` alias encoder does not implement
the decompose/strip/lower-case pipeline the claim describes — on the path
`Á.md` it yields the percent-encoded `%C3%81.md` where the pipeline yields
`a.md`. -/
theorem c6_main_getalias_counterexample :
    Main.getAlias "Á.md" ≠ specAliasEncode "Á.md" := by decide

/-- C6 as amended: the `part_001` alias encoder is a pure total function
equal to the spec's pipeline (decompose accents, drop marks, keep the safe
set, lower-case, percent-encode), and on every input whose stripped form is
nonempty the trailing percent-encoding and path normalisation are the
identity, so the encoder returns the stripped lower-cased string itself.
The `main.ts` encoder omits the stripping — see the counterexample. -/
theorem c6_alias_pipeline_amended (p : String)
    (h : jsToLowerStr (keepSafeChars (stripMarks (nfdStr p))) ≠ "") :
    P1.getAlias p = specAliasEncode p ∧
    P1.getAlias p = jsToLowerStr (keepSafeChars (stripMarks (nfdStr p))) := by
  have hsafe : ∀ c ∈ (jsToLowerStr (keepSafeChars (stripMarks (nfdStr p)))).data,
      isSafeChar c = true := by
    intro c hc
    have hdata : (jsToLowerStr (keepSafeChars (stripMarks (nfdStr p)))).data
        = ((stripMarks (nfdStr p)).data.filter isSafeChar).map jsLowerChar := rfl
    rw [hdata] at hc
    rcases List.mem_map.mp hc with ⟨c0, hc0, rfl⟩
    exact isSafeChar_jsLowerChar (List.of_mem_filter hc0)
  have hne : (jsToLowerStr (keepSafeChars (stripMarks (nfdStr p)))).data ≠ [] := by
    intro hd
    apply h
    have heta : jsToLowerStr (keepSafeChars (stripMarks (nfdStr p)))
        = ⟨(jsToLowerStr (keepSafeChars (stripMarks (nfdStr p)))).data⟩ := rfl
    rw [heta, hd]
  have hnorm : normalizePathO (jsToLowerStr (keepSafeChars (stripMarks (nfdStr p))))
      = jsToLowerStr (keepSafeChars (stripMarks (nfdStr p))) := by
    have := normalizePathO_of_safe hsafe hne
    simpa using this
  have hencode : encodeURIComponentS (jsToLowerStr (keepSafeChars (stripMarks (nfdStr p))))
      = jsToLowerStr (keepSafeChars (stripMarks (nfdStr p))) := by
    have := encode_id_of_unreserved
      (fun c hc => uriUnreserved_of_safe (hsafe c hc))
    simpa using this
  constructor
  · show encodeURIComponentS (normalizePathO
        (jsToLowerStr (keepSafeChars (stripMarks (nfdStr p)))))
      = encodeURIComponentS (jsToLowerStr (keepSafeChars (stripMarks (nfdStr p))))
    rw [hnorm]
  · show encodeURIComponentS (normalizePathO
        (jsToLowerStr (keepSafeChars (stripMarks (nfdStr p)))))
      = jsToLowerStr (keepSafeChars (stripMarks (nfdStr p)))
    rw [hnorm, hencode]

/-- Witness for C6 (amended) at a concrete input: the accented
`Notas É.md` strips and lower-cases to `notas.md`, and the `part_001`
encoder returns exactly that. -/
theorem c6_alias_pipeline_amended_witness :
    P1.getAlias "Notas É.md" = specAliasEncode "Notas É.md" ∧
    P1.getAlias "Notas É.md"
      = jsToLowerStr (keepSafeChars (stripMarks (nfdStr "Notas É.md"))) :=
  c6_alias_pipeline_amended "Notas É.md" (by decide)

/-- C1 (code bug, evaluated at the failing input): local `a.md` is strictly
older (`mtime 5`) than the remote version (`sequenceTag 10`).  The pass
routes the pair to `uploadFileAsNew`, which passes the suffixed name
`a 1.md` to `uploadFile`; no vault file exists at that path, so `uploadFile`
returns without writing.  The remote version survives untouched (the
no-delete/no-overwrite half of the claim holds), but the local content is
never uploaded under any new alias — the whole state is unchanged and
`uploadFileAsNew` performs zero writes. -/
theorem c1_stale_local_never_uploaded :
    Main.syncFiles [⟨"a.md", 5, [1]⟩]
      [("a.md", ObjVal.payload [9] "text/markdown"),
       ("a.md.meta.json", ObjVal.sidecar ⟨"a.md", "a.md", 10⟩)] 50 =
    ([⟨"a.md", 5, [1]⟩],
     [("a.md", ObjVal.payload [9] "text/markdown"),
      ("a.md.meta.json", ObjVal.sidecar ⟨"a.md", "a.md", 10⟩)],
     [Main.SyncAction.uploadAsNew "a.md"]) ∧
    Main.uploadFileAsNew [⟨"a.md", 5, [1]⟩]
      [("a.md", ObjVal.payload [9] "text/markdown"),
       ("a.md.meta.json", ObjVal.sidecar ⟨"a.md", "a.md", 10⟩)] "a.md" =
    ([("a.md", ObjVal.payload [9] "text/markdown"),
      ("a.md.meta.json", ObjVal.sidecar ⟨"a.md", "a.md", 10⟩)], []) := by
  constructor <;> decide

/-- C5 (code bug, evaluated at the failing input): the remote key
`notesa.md` carries a sidecar whose `originalPath` is `notes/a.md`, and no
local file exists there.  `main.ts downloadFile` checks `originalPath` but
then creates the file at the remote key `notesa.md`; the `part_001`
variant of `downloadFile` creates it at `originalPath` as the claim
states. -/
theorem c5_download_wrong_path :
    Main.downloadFile []
      [("notesa.md", ObjVal.payload [7] "text/markdown"),
       ("notesa.md.meta.json", ObjVal.sidecar ⟨"a.md", "notes/a.md", 10⟩)]
      "notesa.md" 50 = [⟨"notesa.md", 50, [7]⟩] ∧
    (Main.downloadFile []
      [("notesa.md", ObjVal.payload [7] "text/markdown"),
       ("notesa.md.meta.json", ObjVal.sidecar ⟨"a.md", "notes/a.md", 10⟩)]
      "notesa.md" 50).find? (fun f => f.path == "notes/a.md") = none ∧
    P1.downloadFile []
      [("notesa.md", ObjVal.payload [7] "text/markdown"),
       ("notesa.md.meta.json", ObjVal.sidecar ⟨"a.md", "notes/a.md", 10⟩)]
      "notesa.md" none 50 = [⟨"notes/a.md", 50, [7]⟩] := by
  refine ⟨by decide, by decide, by decide⟩

/-- C7 (code bug, evaluated at the failing input): the store holds the
objects of `notes/a.md` under its alias keys `notesa.md` and
`notesa.md.meta.json`.  The delete handler `part_001 deleteFile` removes
the raw path keys `notes/a.md` and `notes/a.md.meta.json` instead of the
alias-derived ones, so the store is unchanged; removing the alias keys (as
the claim describes) would have emptied it. -/
theorem c7_delete_misses_alias_keys :
    P1.deleteFile
      [("notesa.md", ObjVal.payload [7] "text/markdown"),
       ("notesa.md.meta.json", ObjVal.sidecar ⟨"a.md", "notes/a.md", 10⟩)]
      "notes/a.md" =
      [("notesa.md", ObjVal.payload [7] "text/markdown"),
       ("notesa.md.meta.json", ObjVal.sidecar ⟨"a.md", "notes/a.md", 10⟩)] ∧
    P1.getAlias "notes/a.md" = "notesa.md" ∧
    P1.deleteFile
      [("notesa.md", ObjVal.payload [7] "text/markdown"),
       ("notesa.md.meta.json", ObjVal.sidecar ⟨"a.md", "notes/a.md", 10⟩)]
      (P1.getAlias "notes/a.md") = [] := by
  refine ⟨by decide, by decide, by decide⟩

/-- Counterexample for C8: starting from an empty vault and one remote file
(`b.md`, `sequenceTag 10`), the first pass downloads `b.md`, creating the
local file with the download-time `mtime 100`.  With no intervening change,
the second pass finds the local file newer than the remote tag and performs
an `updateRemote` upload — the second run is not free of uploads, and the
store changes again (the sidecar timestamp moves to 100). -/
theorem c8_second_run_uploads_counterexample :
    (Main.syncFiles
      (Main.syncFiles [] [("b.md", ObjVal.payload [1] "text/markdown"),
        ("b.md.meta.json", ObjVal.sidecar ⟨"b.md", "b.md", 10⟩)] 100).1
      (Main.syncFiles [] [("b.md", ObjVal.payload [1] "text/markdown"),
        ("b.md.meta.json", ObjVal.sidecar ⟨"b.md", "b.md", 10⟩)] 100).2.1
      101).2.2 = [Main.SyncAction.update "b.md"] ∧
    (Main.syncFiles
      (Main.syncFiles [] [("b.md", ObjVal.payload [1] "text/markdown"),
        ("b.md.meta.json", ObjVal.sidecar ⟨"b.md", "b.md", 10⟩)] 100).1
      (Main.syncFiles [] [("b.md", ObjVal.payload [1] "text/markdown"),
        ("b.md.meta.json", ObjVal.sidecar ⟨"b.md", "b.md", 10⟩)] 100).2.1
      101).2.1 ≠
    (Main.syncFiles [] [("b.md", ObjVal.payload [1] "text/markdown"),
        ("b.md.meta.json", ObjVal.sidecar ⟨"b.md", "b.md", 10⟩)] 100).2.1 := by
  constructor <;> decide

/-- C8 as amended: when every remote file already has a local counterpart
(here: the remote starts empty, so the first pass only uploads) and every
local path is left unchanged by aliasing and is not itself shaped like a
sidecar key, the second of two consecutive passes with no intervening
change performs zero uploads and zero downloads and leaves both sides
untouched.  In general the claim fails — see the counterexample, where the
first pass's own download makes the second pass re-upload. -/
theorem c8_idempotence_amended (v : Vault) (c1 c2 : Nat)
    (hnd : (v.map LocalFile.path).Nodup)
    (halias : ∀ f ∈ v, Main.getAlias f.path = f.path)
    (hmeta : ∀ f ∈ v, endsWithJS f.path ".meta.json" = false)
    (hrep : ∀ f ∈ v, replaceOnce (f.path ++ ".meta.json") ".meta.json" ""
      = f.path) :
    (Main.syncFiles (Main.syncFiles v [] c1).1
        (Main.syncFiles v [] c1).2.1 c2).2.2 = [] ∧
    (Main.syncFiles (Main.syncFiles v [] c1).1
        (Main.syncFiles v [] c1).2.1 c2).1 = (Main.syncFiles v [] c1).1 ∧
    (Main.syncFiles (Main.syncFiles v [] c1).1
        (Main.syncFiles v [] c1).2.1 c2).2.1 = (Main.syncFiles v [] c1).2.1 := by
  obtain ⟨hv1, hs1⟩ := syncFiles_empty_spec v c1 hnd halias hmeta
  rw [hv1, hs1]
  have hagree := syncFiles_agree_spec v c2 hnd hmeta hrep
  rw [hagree]
  exact ⟨rfl, rfl, rfl⟩

/-- Witness for C8 (amended) at a concrete input: a one-file vault with the
alias-invariant path `a.md` and an empty remote. -/
theorem c8_idempotence_amended_witness :
    (Main.syncFiles (Main.syncFiles [⟨"a.md", 5, [1]⟩] [] 7).1
        (Main.syncFiles [⟨"a.md", 5, [1]⟩] [] 7).2.1 8).2.2 = [] ∧
    (Main.syncFiles (Main.syncFiles [⟨"a.md", 5, [1]⟩] [] 7).1
        (Main.syncFiles [⟨"a.md", 5, [1]⟩] [] 7).2.1 8).1
      = (Main.syncFiles [⟨"a.md", 5, [1]⟩] [] 7).1 ∧
    (Main.syncFiles (Main.syncFiles [⟨"a.md", 5, [1]⟩] [] 7).1
        (Main.syncFiles [⟨"a.md", 5, [1]⟩] [] 7).2.1 8).2.1
      = (Main.syncFiles [⟨"a.md", 5, [1]⟩] [] 7).2.1 :=
  c8_idempotence_amended [⟨"a.md", 5, [1]⟩] 7 8
    (by decide) (by decide) (by decide) (by decide)
